import Mathlib

/-!
Verification of the enhanced_finder hybrid retrieval/indexing engine.

Shallow embedding of `src/enhanced_finder/indexer.py` (DocumentIndexer) and
`src/enhanced_finder/simple_agents.py` (SimpleSearchAgent), with the external
collaborators (embedding model, FAISS vector index, filesystem, sqlite) made
explicit: embedding scores and FAISS hit lists are inputs, the sqlite tables
are in-memory lists of rows, and file-system facts are fields of `FileInfo`.
Scores are modelled in `ℚ` (the Python floats carry exact decimal constants
in every claim under scrutiny).  Character handling is ASCII-faithful.
-/

namespace EnhancedFinder

attribute [local semireducible] Rat.add Rat.mul Rat.sub Rat.inv Rat.ofScientific

/-! ### Text helpers: tokenization, substring test, whitespace split -/

/-- Lower-casing is modelled at character level (`s.lower()` viewed as its
character sequence): the byte-position recursion of `String.map` does not
reduce, its `List.map` counterpart does. -/
def lowerData (s : String) : List Char := s.data.map Char.toLower

/-- Word characters as matched by Python's regex `\w` (ASCII fragment). -/
def isWordChar (c : Char) : Bool := c.isAlphanum || c == '_'

/-- Maximal runs of characters satisfying `p`; the second argument is the
current run accumulated in reverse. -/
def runsBy (p : Char → Bool) : List Char → List Char → List (List Char)
  | [], cur => if cur.isEmpty then [] else [cur.reverse]
  | c :: cs, cur =>
    if p c then runsBy p cs (c :: cur)
    else if cur.isEmpty then runsBy p cs []
    else cur.reverse :: runsBy p cs []

/-- Python `re.findall(r'\w+', s.lower())`: the word tokens of `s`, lower-cased. -/
def tokenize (s : String) : List (List Char) :=
  runsBy isWordChar (lowerData s) []

/-- Python `str.split()` with no argument: whitespace runs are separators,
empty pieces are dropped. -/
def pySplitWs (s : String) : List (List Char) :=
  runsBy (fun c => !c.isWhitespace) s.data []

/-- Whether `needle` occurs contiguously inside `hay` (Python's `in` on strings). -/
def isSubList (needle hay : List Char) : Bool :=
  hay.tails.any (fun t => needle.isPrefixOf t)

/-- Python `needle in hay` for strings. -/
def containsStr (hay needle : String) : Bool := isSubList needle.data hay.data

/-! ### difflib.SequenceMatcher.ratio

Model of the Python standard library's `SequenceMatcher` on strings, used by
`SimpleSearchAgent._fuzzy_score`.  Junk handling is omitted: `autojunk` only
activates on second arguments of 200+ characters and no explicit junk
predicate is passed by the source. -/

/-- Length of the common run of `a` and `b` ending at positions `i`, `j`,
not reaching below `alo`/`blo` (the `j2len` recurrence of
`find_longest_match`). -/
def runEnd (a b : List Char) (alo blo : Nat) : Nat → Nat → Nat
  | 0, j =>
    if 0 < alo ∨ j < blo then 0
    else
      match a[0]?, b[j]? with
      | some x, some y => if x = y then 1 else 0
      | _, _ => 0
  | i + 1, 0 =>
    if i + 1 < alo ∨ 0 < blo then 0
    else
      match a[i + 1]?, b[0]? with
      | some x, some y => if x = y then 1 else 0
      | _, _ => 0
  | i + 1, j + 1 =>
    if i + 1 < alo ∨ j + 1 < blo then 0
    else
      match a[i + 1]?, b[j + 1]? with
      | some x, some y => if x = y then runEnd a b alo blo i j + 1 else 0
      | _, _ => 0

/-- Model of `find_longest_match` on the window `[alo, ahi) × [blo, bhi)`: the first
(scanning `i` then `j` ascending) longest matching block, as
`(start in a, start in b, size)`.  The best block found by this scan is
already maximal, so the junk-free extension loops of the source are no-ops. -/
def findLongestMatch (a b : List Char) (alo ahi blo bhi : Nat) : Nat × Nat × Nat :=
  (List.range' alo (ahi - alo)).foldl
    (fun best i =>
      (List.range' blo (bhi - blo)).foldl
        (fun best j =>
          let k := runEnd a b alo blo i j
          if best.2.2 < k then (i + 1 - k, j + 1 - k, k) else best)
        best)
    (alo, blo, 0)

/-- Total size of all matching blocks (`get_matching_blocks` recursion,
driven by explicit fuel; `la + lb + 1` is always enough because every
recursive window is strictly smaller). -/
def matchedTotal (a b : List Char) : Nat → Nat → Nat → Nat → Nat → Nat
  | 0, _, _, _, _ => 0
  | fuel + 1, alo, ahi, blo, bhi =>
    let m := findLongestMatch a b alo ahi blo bhi
    if m.2.2 = 0 then 0
    else
      m.2.2 + matchedTotal a b fuel alo m.1 blo m.2.1
        + matchedTotal a b fuel (m.1 + m.2.2) ahi (m.2.1 + m.2.2) bhi

/-- Ratio `SequenceMatcher(None, a, b).ratio() = 2*M/T`; it is `1.0` when both are empty. -/
def seqRatio (a b : List Char) : ℚ :=
  let la := a.length
  let lb := b.length
  if la + lb = 0 then 1
  else (2 * (matchedTotal a b (la + lb + 1) 0 la 0 lb) : ℚ) / (la + lb)

/-- Ratio `SequenceMatcher(None, a.lower(), b.lower()).ratio()` on character
sequences. -/
def fuzzyRatio (a b : List Char) : ℚ :=
  seqRatio (a.map Char.toLower) (b.map Char.toLower)

/-- Model of `SimpleSearchAgent._fuzzy_score`: ratio of the lower-cased strings. -/
def fuzzyScore (text1 text2 : String) : ℚ := fuzzyRatio text1.data text2.data

/-! ### Configuration (`config.py`) -/

structure FinderConfig where
  supportedExtensions : List String
  ignoredDirectories : List String
  maxFileSizeMb : ℚ
  chunkSize : Nat
  chunkOverlap : Nat
  maxSearchResults : Nat
  similarityThreshold : ℚ
deriving DecidableEq

/-- The defaults of `FinderConfig` in `config.py` (path fields omitted:
they only name on-disk locations). -/
def defaultConfig : FinderConfig where
  supportedExtensions :=
    [".pdf", ".txt", ".md", ".doc", ".docx", ".xlsx", ".xls", ".csv",
     ".json", ".xml", ".py", ".js", ".ts", ".html", ".css", ".yaml",
     ".yml", ".toml", ".ini"]
  ignoredDirectories :=
    [".git", ".svn", ".hg", "__pycache__", ".pytest_cache", "node_modules",
     ".venv", "venv", ".env", "Library/Caches", "Library/Logs", ".Trash",
     "System", "Applications", ".DS_Store"]
  maxFileSizeMb := 100
  chunkSize := 1000
  chunkOverlap := 200
  maxSearchResults := 20
  similarityThreshold := 0.7

/-! ### Result records

Both the indexer's search hits and the agent's results are Python dicts; one
record covers both shapes.  `searchType` is `""` where the source dict has no
`search_type` key, and the opaque `metadata` blob is omitted (never
interpreted, per spec §9). -/

structure Result where
  path : String
  name : String
  snippet : String
  score : ℚ
  searchType : String
deriving DecidableEq

/-! ### Metadata store and vector index state (`indexer.py`) -/

/-- A row of the `documents` table.  The opaque `content_hash` and `metadata`
columns are omitted: no claim (and no search/removal code path) reads them. -/
structure DocRow where
  id : Nat
  filePath : String
  fileName : String
  fileSize : Nat
  modifiedTime : ℚ
  chunkCount : Nat
  indexedTime : ℚ
deriving DecidableEq

/-- A row of the `chunks` table. -/
structure ChunkRow where
  docId : Nat
  chunkIndex : Nat
  content : String
  embeddingIndex : Nat
deriving DecidableEq

/-- The sqlite database plus the FAISS index size.  `nextId` is the next
AUTOINCREMENT value of `documents.id` (never reused); `ntotal` is
`self.index.ntotal`, the count of vectors ever appended. -/
structure DBState where
  docs : List DocRow
  chunks : List ChunkRow
  nextId : Nat
  ntotal : Nat
deriving DecidableEq

/-- Facts `should_index_file` / `is_file_indexed` read from the filesystem
about one path. -/
structure FileInfo where
  path : String
  name : String
  suffix : String
  sizeBytes : Nat
  parentNames : List String
  mtime : ℚ
deriving DecidableEq

/-- The dict returned by `FileProcessorManager.process_file`: the core only
consumes `content`, `error`, `file_size`, `modified_time` (spec §6). -/
structure FileData where
  content : String
  error : Option String
  fileSize : Nat
  modifiedTime : ℚ
deriving DecidableEq

/-- Model of `DocumentIndexer.should_index_file` (the `stat` call is assumed to
succeed; an `OSError` path would also return `false`). -/
def shouldIndexFile (cfg : FinderConfig) (f : FileInfo) : Bool :=
  if !(cfg.supportedExtensions.contains (String.mk (lowerData f.suffix))) then false
  else if cfg.maxFileSizeMb < (f.sizeBytes : ℚ) / (1024 * 1024) then false
  else if f.parentNames.any (fun p => cfg.ignoredDirectories.contains p) then false
  else true

/-- Python's `abs` on the mtime difference, written so that it evaluates. -/
def ratAbs (x : ℚ) : ℚ := if x < 0 then -x else x

/-- Model of `DocumentIndexer.is_file_indexed`: a recorded row for the path whose
stored `modified_time` is within 1 second of the current mtime. -/
def isFileIndexed (st : DBState) (path : String) (curMtime : ℚ) : Bool :=
  match st.docs.find? (fun d => d.filePath == path) with
  | some d => decide (ratAbs (curMtime - d.modifiedTime) < 1)
  | none => false

/-- Model of `DocumentIndexer.index_file`.  External effects are inputs:
`proc` is the file processor's outcome (`Except.error` = it raised), `split`
the text splitter, `embedOk` whether the embedding computation succeeds, and
`store` the fate of the storage step, which runs only after the vectors have
been appended to FAISS: `none` means the document `INSERT OR REPLACE`, the
`n` chunk `INSERT`s and the commit all succeed; `some j` means the `j`-th
statement of that sequence (statement 0 the document insert, statements
`1..n` the chunk inserts, statement `n+1` the commit) raises, the statements
before it having succeeded.  The blanket `try/except` of the source converts
every raised error into a `false` return; a storage failure nevertheless
leaves the appended vectors in the index, and the rows already written stay
visible to the single sqlite connection (the source never rolls back, and
the connection's next commit persists them), so they are part of the
resulting state. -/
def indexFile (cfg : FinderConfig) (f : FileInfo) (proc : Except String FileData)
    (split : String → List String) (embedOk : Bool) (store : Option Nat)
    (now : ℚ) (st : DBState) : Bool × DBState :=
  if !shouldIndexFile cfg f || isFileIndexed st f.path f.mtime then (false, st)
  else
    match proc with
    | .error _ => (false, st)
    | .ok fd =>
      if fd.content == "" || fd.error.isSome then (false, st)
      else
        let chunks := split fd.content
        if chunks.isEmpty then (false, st)
        else if !embedOk then (false, st)
        else
          let startIdx := st.ntotal
          let newDoc : DocRow :=
            ⟨st.nextId, f.path, f.name, fd.fileSize, fd.modifiedTime, chunks.length, now⟩
          let newChunks : List ChunkRow :=
            chunks.enum.map (fun ic => ⟨st.nextId, ic.1, ic.2, startIdx + ic.1⟩)
          match store with
          | some 0 =>
            (false, ⟨st.docs, st.chunks, st.nextId, st.ntotal + chunks.length⟩)
          | some (j + 1) =>
            (false, ⟨st.docs.filter (fun d => d.filePath != f.path) ++ [newDoc],
                     st.chunks ++ newChunks.take j, st.nextId + 1,
                     st.ntotal + chunks.length⟩)
          | none =>
            (true, ⟨st.docs.filter (fun d => d.filePath != f.path) ++ [newDoc],
                    st.chunks ++ newChunks, st.nextId + 1,
                    st.ntotal + chunks.length⟩)

structure BatchStats where
  processed : Nat
  indexed : Nat
  errors : Nat
deriving DecidableEq

/-- Model of `DocumentIndexer.index_directory` over the regular files found by
`rglob`, each paired with its processor/embedding outcomes.  The
`except`-branch that would increment `errors` never fires because
`index_file` catches internally and returns a plain bool. -/
def indexDirectory (cfg : FinderConfig) (split : String → List String) (now : ℚ) :
    List (FileInfo × Except String FileData × Bool × Option Nat) → DBState →
    BatchStats → BatchStats × DBState
  | [], st, stats => (stats, st)
  | (f, proc, embedOk, store) :: rest, st, stats =>
    let r := indexFile cfg f proc split embedOk store now st
    indexDirectory cfg split now rest r.2
      ⟨stats.processed + 1, stats.indexed + (if r.1 then 1 else 0), stats.errors⟩

/-- The SELECT of `search`: resolve a vector slot through
`chunks JOIN documents` (`fetchone`; at most one row under the slot- and
id-uniqueness invariants). -/
def resolveSlot (st : DBState) (idx : Nat) : Option (ChunkRow × DocRow) :=
  match st.chunks.find? (fun c => c.embeddingIndex == idx) with
  | none => none
  | some c =>
    match st.docs.find? (fun d => d.id == c.docId) with
    | none => none
    | some d => some (c, d)

/-- Truncation `content[:200] + "..." if len(content) > 200 else content`. -/
def truncSnippet (content : String) : String :=
  if 200 < content.length then content.take 200 ++ "..." else content

/-- The result dict built for one accepted hit of `DocumentIndexer.search`. -/
def mkSearchResult (c : ChunkRow) (d : DocRow) (score : ℚ) : Result :=
  ⟨d.filePath, d.fileName, truncSnippet c.content, score, ""⟩

/-- The hit loop of `DocumentIndexer.search`: drop sub-threshold scores,
drop orphaned slots, keep only the first hit of each document
(`seen_documents`). -/
def searchLoop (st : DBState) (thr : ℚ) : List (ℚ × Nat) → List Nat → List Result
  | [], _ => []
  | (s, i) :: rest, seen =>
    if s < thr then searchLoop st thr rest seen
    else
      match resolveSlot st i with
      | none => searchLoop st thr rest seen
      | some cd =>
        if seen.contains cd.2.id then searchLoop st thr rest seen
        else mkSearchResult cd.1 cd.2 s :: searchLoop st thr rest (cd.2.id :: seen)

/-- Default `if k is None: k = self.config.max_search_results`. -/
def searchK (cfg : FinderConfig) (k : Option Nat) : Nat := k.getD cfg.maxSearchResults

/-- Model of `DocumentIndexer.search` given the FAISS answer `hits` (pairs of
inner-product score and slot index, descending by score per the vector-index
contract, at most `searchK cfg k` of them). -/
def indexerSearch (cfg : FinderConfig) (st : DBState) (hits : List (ℚ × Nat)) :
    List Result :=
  if st.ntotal = 0 then [] else searchLoop st cfg.similarityThreshold hits []

/-- Lookup `SELECT ... FROM documents WHERE file_path = ?` (spec §4.4
`get_document_by_path`; the lookup `is_file_indexed` and
`remove_file_from_index` both issue). -/
def getDocumentByPath (st : DBState) (path : String) : Option DocRow :=
  st.docs.find? (fun d => d.filePath == path)

/-- Model of `DocumentIndexer.remove_file_from_index` (on the already-resolved path
string): delete the chunk rows then the document row; FAISS untouched. -/
def removeFileFromIndex (st : DBState) (path : String) : Bool × DBState :=
  match getDocumentByPath st path with
  | none => (false, st)
  | some d =>
    (true, ⟨st.docs.filter (fun x => x.id != d.id),
            st.chunks.filter (fun c => c.docId != d.id), st.nextId, st.ntotal⟩)

/-- Model of `DocumentIndexer.get_stats`: `(total_documents, total_chunks,
vector_count)` (the on-disk `index_size_mb` field is omitted). -/
def getStats (st : DBState) : Nat × Nat × Nat :=
  (st.docs.length, st.chunks.length, st.ntotal)

/-- Claim vocabulary: the sum of the `chunk_count` column over the live
document rows. -/
def liveChunkSum (st : DBState) : Nat := (st.docs.map (fun d => d.chunkCount)).sum

/-! ### Hybrid search agent (`simple_agents.py`) -/

/-- Model of `SimpleSearchAgent._keyword_match_score`: fraction of distinct query
word-tokens occurring among the content's word-tokens. -/
def keywordMatchScore (query content : String) : ℚ :=
  let queryWords := (tokenize query).dedup
  let contentWords := tokenize content
  if queryWords.length = 0 then 0
  else ((queryWords.filter (fun w => contentWords.contains w)).length : ℚ) /
    queryWords.length

/-- Model of `SimpleSearchAgent._refine_query`: strip+lower, then expand each
abbreviation occurring as a substring (dict iteration in insertion order;
`str.replace` replaces all occurrences). -/
def refineQuery (query : String) : String :=
  let expansions : List (String × String) :=
    [("doc", "document"), ("pic", "picture image photo"), ("vid", "video"),
     ("txt", "text"), ("pdf", "document"), ("excel", "spreadsheet xlsx csv"),
     ("presentation", "powerpoint ppt pptx slides")]
  expansions.foldl
    (fun refined ae =>
      if containsStr refined ae.1 then
        refined.replace ae.1 (ae.1 ++ " " ++ ae.2)
      else refined)
    query.trim.toLower

/-- Model of `SimpleSearchAgent._determine_search_strategy`. -/
def determineSearchStrategy (query : String) : String :=
  let queryLower := lowerData query
  if [".pdf", ".xlsx", ".doc", ".txt"].any (fun ext => isSubList ext.data queryLower) then
    "filename"
  else if (pySplitWs query).length == 1 && query.data.all (fun c => !c.isWhitespace) then
    "both"
  else "semantic"

/-- Model of `SimpleSearchAgent._hybrid_score_combine` (weighted sum with weights
0.5 / 0.3 / 0.2). -/
def hybridScoreCombine (semanticScore keywordScore filenameScore : ℚ) : ℚ :=
  let semanticWeight : ℚ := 0.5
  let keywordWeight : ℚ := 0.3
  let filenameWeight : ℚ := 0.2
  semanticScore * semanticWeight + keywordScore * keywordWeight +
    filenameScore * filenameWeight

/-- Score assigned by `_filename_search` to a single scanned file, `none`
when the file is skipped: score 1.0 on case-insensitive substring match,
otherwise the fuzzy ratio — but the file is skipped outright when that ratio
is below 0.6, before the keyword score is even computed; an accepted base
score is then maxed with the keyword score and kept when at least 0.6. -/
def fileScore (pattern fileName : String) : Option ℚ :=
  let patternLower := lowerData pattern
  let filenameLower := lowerData fileName
  let base : Option ℚ :=
    if isSubList patternLower filenameLower then some 1
    else
      let s := fuzzyRatio patternLower filenameLower
      if s < 0.6 then none else some s
  match base with
  | none => none
  | some score =>
    let keywordScore := keywordMatchScore pattern fileName
    let finalScore := max score keywordScore
    if (0.6 : ℚ) ≤ finalScore then some finalScore else none

/-- The scan loop of `_filename_search` over the files of ONE scan root as
`(path, filename)` pairs; the early `break` fires once `max_results` results
have accumulated.  In the source that `break` only exits the inner per-root
loop, so a scan over several roots can exceed `max_results` by up to one hit
per additional root; every statement proved below scans a single root, where
the two behaviours coincide. -/
def filenameScan (pattern : String) (maxResults : Nat) :
    List (String × String) → List Result → List Result
  | [], acc => acc
  | pn :: rest, acc =>
    match fileScore pattern pn.2 with
    | none => filenameScan pattern maxResults rest acc
    | some s =>
      let acc' := acc ++ [⟨pn.1, pn.2, "", s, "filename"⟩]
      if maxResults ≤ acc'.length then acc'
      else filenameScan pattern maxResults rest acc'

/-- Descending-score ordering on results (`reverse=True` sorts). -/
def resGe (x y : Result) : Prop := y.score ≤ x.score

instance : DecidableRel resGe := fun x y =>
  inferInstanceAs (Decidable (y.score ≤ x.score))

instance : IsTotal Result resGe := ⟨fun x y => le_total y.score x.score⟩

instance : IsTrans Result resGe := ⟨fun _ _ _ h h' => le_trans h' h⟩

/-- Model of `SimpleSearchAgent._filename_search`: scan, then a stable descending
sort by score (Python's `sorted` is stable; so is insertion sort). -/
def filenameSearch (files : List (String × String)) (pattern : String)
    (maxResults : Nat) : List Result :=
  List.insertionSort resGe (filenameScan pattern maxResults files [])

/-- Association-list lookup on the `all_results` dict (keys are paths and
unique by construction). -/
def lookupA (p : String) : List (String × Result) → Option Result
  | [] => none
  | kv :: rest => if kv.1 = p then some kv.2 else lookupA p rest

/-- Dict assignment to an existing key: replace the value in place (Python
dicts keep the original insertion position). -/
def updateA (p : String) (f : Result → Result) :
    List (String × Result) → List (String × Result)
  | [] => []
  | kv :: rest => if kv.1 = p then (kv.1, f kv.2) :: rest else kv :: updateA p f rest

/-- The semantic leg of `SimpleSearchAgent.search`: rescore each indexer hit
with `0.5*semantic + 0.3*keyword`, keeping the best score per path. -/
def processSemanticHits (query : String) : List Result → List (String × Result) →
    List (String × Result)
  | [], acc => acc
  | r :: rest, acc =>
    let hybridScore :=
      hybridScoreCombine r.score (keywordMatchScore query r.snippet) 0
    let r' : Result := ⟨r.path, r.name, r.snippet, hybridScore, "hybrid_semantic"⟩
    let acc' :=
      match lookupA r.path acc with
      | none => acc ++ [(r.path, r')]
      | some e => if e.score < hybridScore then updateA r.path (fun _ => r') acc
                  else acc
    processSemanticHits query rest acc'

/-- The filename-leg fusion loop of `SimpleSearchAgent.search`: boost a path
already present (`max(existing + 0.2, filename_score)`), otherwise add the
filename-only result. -/
def applyFilenameLeg : List Result → List (String × Result) → List (String × Result)
  | [], acc => acc
  | r :: rest, acc =>
    let acc' :=
      match lookupA r.path acc with
      | some _ =>
        updateA r.path
          (fun e => { e with score := max (e.score + 0.2) r.score,
                             searchType := "hybrid_combined" }) acc
      | none => acc ++ [(r.path, { r with searchType := "filename_fuzzy" })]
    applyFilenameLeg rest acc'

/-- The call `self.indexer.search(refined_query, self.config.max_search_results * 2)`:
the candidate count requested from the document indexer by the semantic leg. -/
def semanticRequestK (cfg : FinderConfig) : Nat := cfg.maxSearchResults * 2

/-- The `all_results` dict of `SimpleSearchAgent.search` after both legs,
in insertion order.  `indexerFn` abstracts `self.indexer.search` (query and
requested k mapped to its results); `files` is the filesystem scan list. -/
def agentFused (cfg : FinderConfig) (query : String)
    (indexerFn : String → Nat → List Result) (files : List (String × String)) :
    List (String × Result) :=
  let strategy := determineSearchStrategy query
  let acc0 : List (String × Result) :=
    if strategy = "semantic" ∨ strategy = "both" then
      processSemanticHits query (indexerFn (refineQuery query) (semanticRequestK cfg)) []
    else []
  if strategy = "filename" ∨ strategy = "both" then
    applyFilenameLeg (filenameSearch files query 15) acc0
  else acc0

/-- The final step of `SimpleSearchAgent.search`: stable descending sort,
then the 0.3 recall filter, then truncation to the configured cap. -/
def agentRank (cfg : FinderConfig) (entries : List Result) : List Result :=
  ((List.insertionSort resGe entries).filter (fun r => (0.3 : ℚ) ≤ r.score)).take
    cfg.maxSearchResults

/-- Model of `SimpleSearchAgent.search` end to end. -/
def agentSearch (cfg : FinderConfig) (query : String)
    (indexerFn : String → Nat → List Result) (files : List (String × String)) :
    List Result :=
  agentRank cfg ((agentFused cfg query indexerFn files).map Prod.snd)

/-! ### Content chunker

Modelled from the spec: the repository delegates chunking to an external
text-splitter library whose code is not under `src/`; spec §4.1 is the
contract.  Windows of length `chunkSize` starting every
`chunkSize - chunkOverlap` characters; a text no longer than one window is a
single chunk; empty input produces zero chunks. -/

def chunkText (chunkSize chunkOverlap : Nat) (t : List Char) : List (List Char) :=
  if t.length = 0 then []
  else if t.length ≤ chunkSize then [t]
  else if chunkSize ≤ chunkOverlap then [t]
  else t.take chunkSize ::
    chunkText chunkSize chunkOverlap (t.drop (chunkSize - chunkOverlap))
termination_by t.length
decreasing_by simp only [List.length_drop]; omega

/-- Reassembly described by the spec: drop the trailing `chunkOverlap`
characters of every non-final chunk and concatenate. -/
def reassemble (chunkOverlap : Nat) : List (List Char) → List Char
  | [] => []
  | [c] => c
  | c :: rest => c.take (c.length - chunkOverlap) ++ reassemble chunkOverlap rest

/-- Two consecutive chunks overlap by exactly `chunkOverlap` characters. -/
def overlapRel (chunkOverlap : Nat) (c d : List Char) : Prop :=
  d.take chunkOverlap = c.drop (c.length - chunkOverlap)

/-- The descending ordering on FAISS hits (score, slot). -/
def hitGe (x y : ℚ × Nat) : Prop := y.1 ≤ x.1

instance : DecidableRel hitGe := fun x y =>
  inferInstanceAs (Decidable (y.1 ≤ x.1))

/-- The filename-leg per-file score as the spec sentence states it: 1.0 on
substring match, else the best of the sequence-similarity ratio and the
keyword-overlap ratio, discarding candidates scoring below 0.6.  Stated for
comparison against `fileScore`, the behaviour of the source. -/
def specFileScore (pattern fileName : String) : Option ℚ :=
  let patternLower := lowerData pattern
  let filenameLower := lowerData fileName
  let score : ℚ :=
    if isSubList patternLower filenameLower then 1
    else max (fuzzyRatio patternLower filenameLower)
      (keywordMatchScore pattern fileName)
  if score < 0.6 then none else some score

/-- A fresh database: no rows, AUTOINCREMENT at 1, empty FAISS index. -/
def emptyState : DBState := ⟨[], [], 1, 0⟩

/-! ### Concrete scenario and witness data -/

def w1doc : DocRow := ⟨1, "/docs/a.txt", "a.txt", 5, 100, 1, 50⟩

def w1chunk : ChunkRow := ⟨1, 0, "hello", 0⟩

def w1st : DBState := ⟨[w1doc], [w1chunk], 2, 1⟩

def w2f : FileInfo := ⟨"/docs/a.txt", "a.txt", ".txt", 5, [], 100⟩

def w2fd : FileData := ⟨"hello", none, 5, 100⟩

def c6file : FileInfo := ⟨"/docs/b.txt", "b.txt", ".txt", 5, [], 100⟩

def c6skip : FileInfo := ⟨"/docs/b.exe", "b.exe", ".exe", 5, [], 100⟩

def c6fd : FileData := ⟨"hello", none, 5, 100⟩

def c10f1 : FileInfo := ⟨"/docs/n.txt", "n.txt", ".txt", 4, [], 100⟩

def c10f2 : FileInfo := ⟨"/docs/n.txt", "n.txt", ".txt", 4, [], 200⟩

def c10fd1 : FileData := ⟨"aaaa", none, 4, 100⟩

def c10fd2 : FileData := ⟨"bbbb", none, 4, 200⟩

def c10split : String → List String := fun c => [c]

def c10st1 : DBState :=
  (indexFile defaultConfig c10f1 (.ok c10fd1) c10split true none 1 emptyState).2

def c10st2 : DBState :=
  (indexFile defaultConfig c10f2 (.ok c10fd2) c10split true none 2 c10st1).2

def c3accA : Result := ⟨"/d/A", "A", "", 0.6, "hybrid_semantic"⟩

def c3accB : Result := ⟨"/d/B", "B", "", 0.5, "hybrid_semantic"⟩

def c3fnA : Result := ⟨"/d/A", "A", "", 1, "filename"⟩

def c3acc : List (String × Result) := [("/d/A", c3accA), ("/d/B", c3accB)]

def c3final : List Result :=
  agentRank defaultConfig ((applyFilenameLeg [c3fnA] c3acc).map Prod.snd)

def w7r : Result := ⟨"/d/A", "A", "alpha beta", 0.9, ""⟩

/-! ## Theorems -/

theorem ratAbs_eq_abs (x : ℚ) : ratAbs x = |x| := by
  unfold ratAbs
  split_ifs with h
  · exact (abs_of_neg h).symm
  · exact (abs_of_nonneg (not_lt.mp h)).symm

/-- C2: a second `index_file` call on an unchanged file (recorded row for the
path with a modification time within 1 second of the current one) returns
`false` and leaves the whole state — in particular the document count and the
vector count — unchanged. -/
theorem claim2_idempotent_skip (cfg : FinderConfig) (f : FileInfo)
    (proc : Except String FileData) (split : String → List String)
    (embedOk : Bool) (store : Option Nat) (now : ℚ) (st : DBState) (d : DocRow)
    (hfind : st.docs.find? (fun x => x.filePath == f.path) = some d)
    (hmtime : |f.mtime - d.modifiedTime| < 1) :
    indexFile cfg f proc split embedOk store now st = (false, st) ∧
    (indexFile cfg f proc split embedOk store now st).2.docs.length =
      st.docs.length ∧
    (indexFile cfg f proc split embedOk store now st).2.ntotal = st.ntotal := by
  have hidx : isFileIndexed st f.path f.mtime = true := by
    unfold isFileIndexed
    rw [hfind]
    apply decide_eq_true
    rw [ratAbs_eq_abs]
    exact hmtime
  have h : indexFile cfg f proc split embedOk store now st = (false, st) := by
    unfold indexFile
    rw [hidx]
    simp
  exact ⟨h, by rw [h], by rw [h]⟩

theorem claim2_witness :
    indexFile defaultConfig w2f (.ok w2fd) (fun c => [c]) true none 123 w1st =
      (false, w1st) :=
  (claim2_idempotent_skip defaultConfig w2f (.ok w2fd) (fun c => [c]) true none
    123 w1st w1doc (by decide) (by norm_num [w2f, w1doc])).1

/-- C6 (amended): `index_file` returns `true` exactly when the file is newly
indexed and fully stored; it returns `false` both when the file is skipped as
ineligible or already current and when processing fails — extraction error or
empty content, zero chunks, embedding failure, or a storage failure in the
document/chunk write or commit — so by its return value alone an error is
indistinguishable from a skip, and the error counter of `index_directory`
never increments.  Extraction and embedding failures leave the state
unchanged, but a storage failure strikes only after `index.add`: the vector
count still grows by the chunk count, leaving partial state behind the
`false` return. -/
theorem claim6_amended :
    (∀ (cfg : FinderConfig) (f : FileInfo) (proc : Except String FileData)
       (split : String → List String) (embedOk : Bool) (store : Option Nat)
       (now : ℚ) (st : DBState),
      (indexFile cfg f proc split embedOk store now st).1 = true ↔
        shouldIndexFile cfg f = true ∧ isFileIndexed st f.path f.mtime = false ∧
        store = none ∧
        ∃ fd, proc = Except.ok fd ∧ fd.content ≠ "" ∧ fd.error = none ∧
          split fd.content ≠ [] ∧ embedOk = true) ∧
    (∀ (cfg : FinderConfig) (f : FileInfo) (fd : FileData)
       (split : String → List String) (j : Nat) (now : ℚ) (st : DBState),
      shouldIndexFile cfg f = true → isFileIndexed st f.path f.mtime = false →
      fd.content ≠ "" → fd.error = none → split fd.content ≠ [] →
      (indexFile cfg f (.ok fd) split true (some j) now st).1 = false ∧
      (indexFile cfg f (.ok fd) split true (some j) now st).2.ntotal =
        st.ntotal + (split fd.content).length ∧
      st.ntotal < (indexFile cfg f (.ok fd) split true (some j) now st).2.ntotal) ∧
    (∀ (cfg : FinderConfig) (split : String → List String) (now : ℚ)
       (jobs : List (FileInfo × Except String FileData × Bool × Option Nat))
       (st : DBState) (stats : BatchStats),
      (indexDirectory cfg split now jobs st stats).1.errors = stats.errors) := by
  refine ⟨?_, ?_, ?_⟩
  · intro cfg f proc split embedOk store now st
    unfold indexFile
    cases hs : shouldIndexFile cfg f with
    | false => simp [hs]
    | true =>
      cases hi : isFileIndexed st f.path f.mtime with
      | true => simp [hi]
      | false =>
        simp only [Bool.not_true, Bool.false_or, Bool.false_eq_true, false_and,
          not_false_eq_true, true_and]
        cases proc with
        | error e => simp
        | ok fd =>
          cases hc : fd.content == "" with
          | true =>
            have : fd.content = "" := by simpa using hc
            simp [this]
          | false =>
            have hc' : ¬ fd.content = "" := by simpa using hc
            cases he : fd.error with
            | some err => simp [hc, he]
            | none =>
              cases hn : (split fd.content).isEmpty with
              | true =>
                have : split fd.content = [] := by simpa [List.isEmpty_iff] using hn
                simp [hc, he, this]
              | false =>
                have hn' : ¬ split fd.content = [] := by
                  simpa [List.isEmpty_iff] using hn
                cases embedOk with
                | false => simp [hc, he, hn]
                | true =>
                  cases store with
                  | none =>
                    simp only [hc, he, hn, Bool.not_true, Bool.false_eq_true,
                      if_false, Option.isSome_none, Bool.or_false,
                      Bool.not_false, if_true]
                    simp only [ne_eq, eq_self_iff_true, and_true, true_iff,
                      true_and]
                    exact ⟨fd, rfl, hc', he, hn'⟩
                  | some j =>
                    cases j with
                    | zero => simp [hc, he, hn]
                    | succ k => simp [hc, he, hn]
  · intro cfg f fd split j now st hel hidx hc he hsplit
    have h1 : ¬ (!shouldIndexFile cfg f ||
        isFileIndexed st f.path f.mtime) = true := by
      rw [hel, hidx]
      simp
    have h2 : ¬ (fd.content == "" || fd.error.isSome) = true := by
      rw [he]
      simp [hc]
    have h3 : ¬ (split fd.content).isEmpty = true := by
      simpa [List.isEmpty_iff] using hsplit
    have hpos : 0 < (split fd.content).length := List.length_pos.mpr hsplit
    cases j with
    | zero =>
      have hred : indexFile cfg f (.ok fd) split true (some 0) now st =
          (false, ⟨st.docs, st.chunks, st.nextId,
            st.ntotal + (split fd.content).length⟩) := by
        unfold indexFile
        rw [if_neg h1]
        dsimp only
        rw [if_neg h2, if_neg h3]
        rfl
      refine ⟨by rw [hred], by rw [hred], ?_⟩
      rw [hred]
      dsimp only
      omega
    | succ k =>
      have hred : indexFile cfg f (.ok fd) split true (some (k + 1)) now st =
          (false, ⟨st.docs.filter (fun x => x.filePath != f.path) ++
              [⟨st.nextId, f.path, f.name, fd.fileSize, fd.modifiedTime,
                (split fd.content).length, now⟩],
            st.chunks ++ ((split fd.content).enum.map
              (fun ic => ⟨st.nextId, ic.1, ic.2, st.ntotal + ic.1⟩)).take k,
            st.nextId + 1, st.ntotal + (split fd.content).length⟩) := by
        unfold indexFile
        rw [if_neg h1]
        dsimp only
        rw [if_neg h2, if_neg h3]
        rfl
      refine ⟨by rw [hred], by rw [hred], ?_⟩
      rw [hred]
      dsimp only
      omega
  · intro cfg split now jobs
    induction jobs with
    | nil => intro st stats; rfl
    | cons j rest ih =>
      intro st stats
      exact ih _ _

/-- C6 counterexample: an extraction failure (the processor raises) produces
exactly the same outcome as an ineligible-file skip — `(false, unchanged
state)` — so the error is not signalled distinctly to the caller. -/
theorem claim6_counterexample :
    indexFile defaultConfig c6file (.error "extraction failed") (fun c => [c])
        true none 0 emptyState =
      indexFile defaultConfig c6skip (.ok c6fd) (fun c => [c]) true none 0
        emptyState ∧
    (indexFile defaultConfig c6file (.error "extraction failed") (fun c => [c])
        true none 0 emptyState).1 = false := by
  constructor
  · decide
  · decide

theorem docPath_inj {docs : List DocRow} (hp : (docs.map DocRow.filePath).Nodup)
    {d1 d2 : DocRow} (h1 : d1 ∈ docs) (h2 : d2 ∈ docs)
    (he : d1.filePath = d2.filePath) : d1 = d2 :=
  List.inj_on_of_nodup_map hp h1 h2 he

theorem resolveSlot_mem {st : DBState} {i : Nat} {c : ChunkRow} {d : DocRow}
    (h : resolveSlot st i = some (c, d)) : c ∈ st.chunks ∧ d ∈ st.docs := by
  unfold resolveSlot at h
  cases hc : st.chunks.find? (fun x => x.embeddingIndex == i) with
  | none => rw [hc] at h; simp at h
  | some c0 =>
    rw [hc] at h
    dsimp only at h
    cases hd : st.docs.find? (fun x => x.id == c0.docId) with
    | none => rw [hd] at h; simp at h
    | some d0 =>
      rw [hd] at h
      simp only [Option.some.injEq, Prod.mk.injEq] at h
      obtain ⟨rfl, rfl⟩ := h
      exact ⟨List.mem_of_find?_eq_some hc, List.mem_of_find?_eq_some hd⟩

/-- Every result of the hit loop comes from a hit that passed the threshold,
resolved to a live chunk/document pair, and whose document was not seen yet. -/
theorem searchLoop_mem {st : DBState} {thr : ℚ} :
    ∀ {hits : List (ℚ × Nat)} {seen : List Nat} {r : Result},
      r ∈ searchLoop st thr hits seen →
      ∃ s i c d, (s, i) ∈ hits ∧ thr ≤ s ∧ resolveSlot st i = some (c, d) ∧
        d.id ∉ seen ∧ r = mkSearchResult c d s := by
  intro hits
  induction hits with
  | nil => intro seen r hr; simp [searchLoop] at hr
  | cons hd rest ih =>
    intro seen r hr
    obtain ⟨s, i⟩ := hd
    by_cases hs : s < thr
    · rw [searchLoop, if_pos hs] at hr
      obtain ⟨s', i', c, d, h1, h2, h3, h4, h5⟩ := ih hr
      exact ⟨s', i', c, d, List.mem_cons_of_mem _ h1, h2, h3, h4, h5⟩
    · rw [searchLoop, if_neg hs] at hr
      cases hres : resolveSlot st i with
      | none =>
        rw [hres] at hr
        obtain ⟨s', i', c, d, h1, h2, h3, h4, h5⟩ := ih hr
        exact ⟨s', i', c, d, List.mem_cons_of_mem _ h1, h2, h3, h4, h5⟩
      | some cd =>
        rw [hres] at hr
        dsimp only at hr
        by_cases hseen : cd.2.id ∈ seen
        · rw [if_pos (by simpa using hseen)] at hr
          obtain ⟨s', i', c, d, h1, h2, h3, h4, h5⟩ := ih hr
          exact ⟨s', i', c, d, List.mem_cons_of_mem _ h1, h2, h3, h4, h5⟩
        · rw [if_neg (by simpa using hseen)] at hr
          rcases List.mem_cons.mp hr with h | h
          · exact ⟨s, i, cd.1, cd.2, List.mem_cons_self _ _, not_lt.mp hs,
              by rw [hres], hseen, h⟩
          · obtain ⟨s', i', c, d, h1, h2, h3, h4, h5⟩ := ih h
            exact ⟨s', i', c, d, List.mem_cons_of_mem _ h1, h2, h3,
              fun hm => h4 (List.mem_cons_of_mem _ hm), h5⟩

/-- The hit loop returns at most one result per input hit. -/
theorem searchLoop_length {st : DBState} {thr : ℚ} :
    ∀ (hits : List (ℚ × Nat)) (seen : List Nat),
      (searchLoop st thr hits seen).length ≤ hits.length := by
  intro hits
  induction hits with
  | nil => intro seen; simp [searchLoop]
  | cons hd rest ih =>
    intro seen
    obtain ⟨s, i⟩ := hd
    by_cases hs : s < thr
    · rw [searchLoop, if_pos hs]
      exact le_trans (ih seen) (Nat.le_succ _)
    · rw [searchLoop, if_neg hs]
      cases hres : resolveSlot st i with
      | none => exact le_trans (ih seen) (Nat.le_succ _)
      | some cd =>
        dsimp only
        by_cases hseen : cd.2.id ∈ seen
        · rw [if_pos (by simpa using hseen)]
          exact le_trans (ih seen) (Nat.le_succ _)
        · rw [if_neg (by simpa using hseen)]
          simpa using Nat.succ_le_succ (ih (cd.2.id :: seen))

/-- Deduplication: under path-uniqueness of the document rows, the hit loop
yields pairwise distinct paths — at most one result per document. -/
theorem searchLoop_pathsNodup {st : DBState} {thr : ℚ}
    (hpaths : (st.docs.map DocRow.filePath).Nodup) :
    ∀ (hits : List (ℚ × Nat)) (seen : List Nat),
      ((searchLoop st thr hits seen).map Result.path).Nodup := by
  intro hits
  induction hits with
  | nil => intro seen; simp [searchLoop]
  | cons hd rest ih =>
    intro seen
    obtain ⟨s, i⟩ := hd
    by_cases hs : s < thr
    · rw [searchLoop, if_pos hs]; exact ih seen
    · rw [searchLoop, if_neg hs]
      cases hres : resolveSlot st i with
      | none => exact ih seen
      | some cd =>
        dsimp only
        by_cases hseen : cd.2.id ∈ seen
        · rw [if_pos (by simpa using hseen)]; exact ih seen
        · rw [if_neg (by simpa using hseen)]
          rw [List.map_cons]
          refine List.nodup_cons.mpr ⟨?_, ih (cd.2.id :: seen)⟩
          intro hmem
          obtain ⟨r, hr, hrp⟩ := List.mem_map.mp hmem
          obtain ⟨s', i', c, d, _, _, hres', hnseen, hreq⟩ := searchLoop_mem hr
          have h1 : d.filePath = cd.2.filePath := by
            rw [hreq] at hrp
            exact hrp
          have : d = cd.2 :=
            docPath_inj hpaths (resolveSlot_mem hres').2 (resolveSlot_mem hres).2 h1
          exact hnseen (this ▸ List.mem_cons_self _ _)

/-- When the hit list is descending by score, so is the result list. -/
theorem searchLoop_sorted {st : DBState} {thr : ℚ} :
    ∀ {hits : List (ℚ × Nat)} {seen : List Nat}, hits.Sorted hitGe →
      (searchLoop st thr hits seen).Sorted resGe := by
  intro hits
  induction hits with
  | nil => intro seen _; simp [searchLoop]
  | cons hd rest ih =>
    intro seen hsort
    obtain ⟨s, i⟩ := hd
    have htail : rest.Sorted hitGe := hsort.of_cons
    have hhead : ∀ y ∈ rest, hitGe (s, i) y := List.rel_of_sorted_cons hsort
    by_cases hs : s < thr
    · rw [searchLoop, if_pos hs]; exact ih htail
    · rw [searchLoop, if_neg hs]
      cases hres : resolveSlot st i with
      | none => exact ih htail
      | some cd =>
        dsimp only
        by_cases hseen : cd.2.id ∈ seen
        · rw [if_pos (by simpa using hseen)]; exact ih htail
        · rw [if_neg (by simpa using hseen)]
          refine List.sorted_cons.mpr ⟨?_, ih htail⟩
          intro r hr
          obtain ⟨s', i', c, d, hmem, _, _, _, hreq⟩ := searchLoop_mem hr
          have : s' ≤ s := hhead (s', i') hmem
          rw [hreq]
          exact this

/-- The first (hence, on a descending hit list, best-scoring) surviving hit
of each document is the one reported. -/
theorem searchLoop_first_wins {st : DBState} {thr : ℚ}
    (hpaths : (st.docs.map DocRow.filePath).Nodup) :
    ∀ {hits : List (ℚ × Nat)} {seen : List Nat}, hits.Sorted hitGe →
      ∀ {r : Result}, r ∈ searchLoop st thr hits seen →
        ∀ {s' : ℚ} {i' : Nat} {c' : ChunkRow} {d' : DocRow}, (s', i') ∈ hits →
          thr ≤ s' → resolveSlot st i' = some (c', d') → d'.filePath = r.path →
          s' ≤ r.score := by
  intro hits
  induction hits with
  | nil => intro seen _ r hr; simp [searchLoop] at hr
  | cons hd rest ih =>
    intro seen hsort r hr s' i' c' d' hmem hthr hres' hpath
    obtain ⟨s, i⟩ := hd
    have htail := hsort.of_cons
    have hhead := List.rel_of_sorted_cons hsort
    by_cases hs : s < thr
    · rw [searchLoop, if_pos hs] at hr
      rcases List.mem_cons.mp hmem with heq | hmem'
      · rw [Prod.mk.injEq] at heq
        exact absurd (heq.1 ▸ hthr) (not_le.mpr hs)
      · exact ih htail hr hmem' hthr hres' hpath
    · rw [searchLoop, if_neg hs] at hr
      cases hres : resolveSlot st i with
      | none =>
        rw [hres] at hr
        dsimp only at hr
        rcases List.mem_cons.mp hmem with heq | hmem'
        · rw [Prod.mk.injEq] at heq
          rw [heq.2] at hres'
          rw [hres] at hres'
          exact absurd hres' (by simp)
        · exact ih htail hr hmem' hthr hres' hpath
      | some cd =>
        obtain ⟨c1, d1⟩ := cd
        rw [hres] at hr
        dsimp only at hr
        by_cases hseen : d1.id ∈ seen
        · rw [if_pos (by simpa using hseen)] at hr
          rcases List.mem_cons.mp hmem with heq | hmem'
          · exfalso
            rw [Prod.mk.injEq] at heq
            rw [heq.2, hres] at hres'
            injection hres' with hcd
            rw [Prod.mk.injEq] at hcd
            obtain ⟨s2, i2, c2, d2, _, _, hres2, hnseen, hreq⟩ := searchLoop_mem hr
            have hp2 : d1.filePath = d2.filePath := by
              rw [hcd.2, hpath, hreq]
              rfl
            have hdd : d1 = d2 :=
              docPath_inj hpaths (resolveSlot_mem hres).2
                (resolveSlot_mem hres2).2 hp2
            exact hnseen (hdd ▸ hseen)
          · exact ih htail hr hmem' hthr hres' hpath
        · rw [if_neg (by simpa using hseen)] at hr
          rcases List.mem_cons.mp hr with hhd | htl
          · rcases List.mem_cons.mp hmem with heq | hmem'
            · rw [Prod.mk.injEq] at heq
              rw [heq.1, hhd]
              exact le_refl s
            · have : s' ≤ s := hhead (s', i') hmem'
              rw [hhd]
              exact this
          · rcases List.mem_cons.mp hmem with heq | hmem'
            · exfalso
              rw [Prod.mk.injEq] at heq
              rw [heq.2, hres] at hres'
              injection hres' with hcd
              rw [Prod.mk.injEq] at hcd
              obtain ⟨s2, i2, c2, d2, _, _, hres2, hnseen, hreq⟩ := searchLoop_mem htl
              have hp2 : d1.filePath = d2.filePath := by
                rw [hcd.2, hpath, hreq]
                rfl
              have hdd : d1 = d2 :=
                docPath_inj hpaths (resolveSlot_mem hres).2
                  (resolveSlot_mem hres2).2 hp2
              apply hnseen
              rw [← hdd]
              exact List.mem_cons_self _ _
            · exact ih htail htl hmem' hthr hres' hpath

/-- C1: ordered, thresholded, deduplicated search.  Every returned result
meets the similarity threshold and resolves through the metadata store
(orphaned slots are dropped); paths — one per document under the path
uniqueness invariant — are pairwise distinct with the first/highest-scoring
occurrence kept; results come back in descending score order; and no more
results than `searchK cfg k` are returned, where `k = none` defaults to the
configured maximum. -/
theorem claim1_search (cfg : FinderConfig) (st : DBState) (hits : List (ℚ × Nat))
    (k : Option Nat)
    (hpaths : (st.docs.map DocRow.filePath).Nodup)
    (hsorted : hits.Sorted hitGe)
    (hlen : hits.length ≤ searchK cfg k) :
    (∀ r ∈ indexerSearch cfg st hits,
       cfg.similarityThreshold ≤ r.score ∧
       ∃ s i c d, (s, i) ∈ hits ∧ resolveSlot st i = some (c, d) ∧
         r = mkSearchResult c d s) ∧
    ((indexerSearch cfg st hits).map Result.path).Nodup ∧
    (indexerSearch cfg st hits).Sorted resGe ∧
    (indexerSearch cfg st hits).length ≤ searchK cfg k ∧
    searchK cfg none = cfg.maxSearchResults ∧
    (∀ r ∈ indexerSearch cfg st hits, ∀ (s : ℚ) (i : Nat) (c : ChunkRow) (d : DocRow),
       (s, i) ∈ hits → cfg.similarityThreshold ≤ s → resolveSlot st i = some (c, d) →
       d.filePath = r.path → s ≤ r.score) := by
  unfold indexerSearch
  by_cases hz : st.ntotal = 0
  · rw [if_pos hz]
    exact ⟨by simp, by simp, by simp, by simp, rfl, by simp⟩
  · rw [if_neg hz]
    refine ⟨?_, searchLoop_pathsNodup hpaths _ _, searchLoop_sorted hsorted,
      le_trans (searchLoop_length _ _) hlen, rfl, ?_⟩
    · intro r hr
      obtain ⟨s, i, c, d, h1, h2, h3, _, h5⟩ := searchLoop_mem hr
      refine ⟨?_, s, i, c, d, h1, h3, h5⟩
      rw [h5]
      exact h2
    · intro r hr s i c d hm ht hres hp
      exact searchLoop_first_wins hpaths hsorted hr hm ht hres hp

theorem claim1_witness :
    ((indexerSearch defaultConfig w1st [((0.9 : ℚ), 0)]).map Result.path).Nodup :=
  (claim1_search defaultConfig w1st [((0.9 : ℚ), 0)] none (by decide)
    (List.sorted_singleton _) (by decide)).2.1

/-- C5: removing an indexed path deletes its document row and all its chunk
rows, so the path lookup reports not-found and search can never return the
path again, while the vector count is untouched. -/
theorem claim5_removal (st : DBState) (p : String) (d : DocRow)
    (hpaths : (st.docs.map DocRow.filePath).Nodup)
    (hd : d ∈ st.docs) (hdp : d.filePath = p) :
    (removeFileFromIndex st p).1 = true ∧
    getDocumentByPath (removeFileFromIndex st p).2 p = none ∧
    (∀ c ∈ (removeFileFromIndex st p).2.chunks, c.docId ≠ d.id) ∧
    (removeFileFromIndex st p).2.ntotal = st.ntotal ∧
    (∀ (cfg : FinderConfig) (hits : List (ℚ × Nat)) (r : Result),
      r ∈ indexerSearch cfg (removeFileFromIndex st p).2 hits → r.path ≠ p) := by
  have hfind : getDocumentByPath st p = some d := by
    unfold getDocumentByPath
    cases hf : st.docs.find? (fun x => x.filePath == p) with
    | none =>
      exfalso
      have := List.find?_eq_none.mp hf d hd
      simp [hdp] at this
    | some x =>
      have hx : x ∈ st.docs := List.mem_of_find?_eq_some hf
      have hpx : x.filePath = p := by simpa using List.find?_some hf
      rw [docPath_inj hpaths hx hd (hpx.trans hdp.symm)]
  have hrem : removeFileFromIndex st p =
      (true, ⟨st.docs.filter (fun x => x.id != d.id),
              st.chunks.filter (fun c => c.docId != d.id), st.nextId, st.ntotal⟩) := by
    unfold removeFileFromIndex
    rw [hfind]
  have hnop : ∀ x ∈ st.docs.filter (fun x => x.id != d.id), x.filePath ≠ p := by
    intro x hx hxp
    obtain ⟨hxm, hxid⟩ := List.mem_filter.mp hx
    have : x = d := docPath_inj hpaths hxm hd (hxp.trans hdp.symm)
    subst this
    simp at hxid
  refine ⟨by rw [hrem], ?_, ?_, by rw [hrem], ?_⟩
  · rw [hrem]
    unfold getDocumentByPath
    apply List.find?_eq_none.mpr
    intro x hx
    simpa using hnop x hx
  · rw [hrem]
    intro c hc
    have := (List.mem_filter.mp hc).2
    simpa using this
  · intro cfg hits r hr
    rw [hrem] at hr
    unfold indexerSearch at hr
    by_cases hz : st.ntotal = 0
    · simp [hz] at hr
    · rw [if_neg hz] at hr
      obtain ⟨s, i, c, dd, _, _, hres, _, hreq⟩ := searchLoop_mem hr
      have hdd : dd ∈ st.docs.filter (fun x => x.id != d.id) := (resolveSlot_mem hres).2
      have : r.path = dd.filePath := by rw [hreq]; rfl
      rw [this]
      exact hnop dd hdd

theorem claim5_witness :
    (removeFileFromIndex w1st "/docs/a.txt").1 = true ∧
    getDocumentByPath (removeFileFromIndex w1st "/docs/a.txt").2 "/docs/a.txt" =
      none :=
  ⟨(claim5_removal w1st "/docs/a.txt" w1doc (by decide) (by decide) (by decide)).1,
   (claim5_removal w1st "/docs/a.txt" w1doc (by decide) (by decide)
      (by decide)).2.1⟩

/-! ### Association-list lemmas for the `all_results` dict -/

theorem lookupA_append_ne {l : List (String × Result)} {k p : String} {v : Result}
    (h : k ≠ p) : lookupA p (l ++ [(k, v)]) = lookupA p l := by
  induction l with
  | nil => simp [lookupA, h]
  | cons kv rest ih =>
    by_cases hk : kv.1 = p
    · simp [lookupA, hk]
    · simp only [List.cons_append, lookupA, hk, if_neg hk]
      exact ih

theorem lookupA_append_self {l : List (String × Result)} {p : String} {v : Result}
    (h : lookupA p l = none) : lookupA p (l ++ [(p, v)]) = some v := by
  induction l with
  | nil => simp [lookupA]
  | cons kv rest ih =>
    by_cases hk : kv.1 = p
    · rw [lookupA, if_pos hk] at h
      cases h
    · rw [lookupA, if_neg hk] at h
      simp only [List.cons_append, lookupA, if_neg hk]
      exact ih h

theorem lookupA_updateA_self (l : List (String × Result)) (p : String)
    (f : Result → Result) :
    lookupA p (updateA p f l) = (lookupA p l).map f := by
  induction l with
  | nil => simp [lookupA, updateA]
  | cons kv rest ih =>
    by_cases hk : kv.1 = p
    · rw [updateA, if_pos hk, lookupA, if_pos hk, lookupA, if_pos hk]
      rfl
    · rw [updateA, if_neg hk, lookupA, if_neg hk, lookupA, if_neg hk]
      exact ih

theorem lookupA_updateA_ne {l : List (String × Result)} {q p : String}
    (f : Result → Result) (h : q ≠ p) :
    lookupA p (updateA q f l) = lookupA p l := by
  induction l with
  | nil => simp [lookupA, updateA]
  | cons kv rest ih =>
    by_cases hk : kv.1 = q
    · rw [updateA, if_pos hk, lookupA, lookupA, if_neg (hk ▸ h), if_neg (hk ▸ h)]
    · rw [updateA, if_neg hk, lookupA, lookupA]
      by_cases hp : kv.1 = p
      · rw [if_pos hp, if_pos hp]
      · rw [if_neg hp, if_neg hp]
        exact ih

/-! ### C7: the semantic leg -/

/-- Unrolled semantic leg: when the incoming hit paths are fresh and pairwise
distinct, every hit is appended with score `0.5*semantic + 0.3*keyword`. -/
theorem processSemanticHits_fresh (query : String) :
    ∀ (rs : List Result) (acc : List (String × Result)),
      (rs.map Result.path).Nodup →
      (∀ r ∈ rs, lookupA r.path acc = none) →
      processSemanticHits query rs acc =
        acc ++ rs.map (fun r =>
          (r.path, ⟨r.path, r.name, r.snippet,
            hybridScoreCombine r.score (keywordMatchScore query r.snippet) 0,
            "hybrid_semantic"⟩)) := by
  intro rs
  induction rs with
  | nil => intro acc _ _; simp [processSemanticHits]
  | cons r rest ih =>
    intro acc hnodup hfresh
    rw [processSemanticHits]
    rw [hfresh r (List.mem_cons_self _ _)]
    dsimp only
    rw [ih _ ((List.nodup_cons.mp hnodup).2) ?fresh]
    · simp
    case fresh =>
      intro r2 hr2
      rw [lookupA_append_ne ?ne]
      · exact hfresh r2 (List.mem_cons_of_mem _ hr2)
      case ne =>
        intro hpp
        exact (List.nodup_cons.mp hnodup).1
          (hpp ▸ List.mem_map_of_mem Result.path hr2)

/-- C7: each semantic-leg hit is stored with combined score
`0.5 * semantic + 0.3 * keyword`, the keyword score being the fraction of
distinct query word-tokens occurring in the content snippet, and the leg
requests twice the configured result cap from the document indexer. -/
theorem claim7_semantic_scoring :
    (∀ (query : String) (rs : List Result), (rs.map Result.path).Nodup →
      processSemanticHits query rs [] =
        rs.map (fun r =>
          (r.path, ⟨r.path, r.name, r.snippet,
            hybridScoreCombine r.score (keywordMatchScore query r.snippet) 0,
            "hybrid_semantic"⟩))) ∧
    (∀ s k : ℚ, hybridScoreCombine s k 0 = 0.5 * s + 0.3 * k) ∧
    (∀ cfg : FinderConfig, semanticRequestK cfg = 2 * cfg.maxSearchResults) := by
  refine ⟨?_, ?_, ?_⟩
  · intro query rs hnodup
    rw [processSemanticHits_fresh query rs [] hnodup (fun r _ => rfl)]
    rfl
  · intro s k
    unfold hybridScoreCombine
    ring
  · intro cfg
    unfold semanticRequestK
    exact Nat.mul_comm _ _

theorem claim7_witness :
    processSemanticHits "alpha" [w7r] [] =
      [w7r].map (fun r =>
        (r.path, ⟨r.path, r.name, r.snippet,
          hybridScoreCombine r.score (keywordMatchScore "alpha" r.snippet) 0,
          "hybrid_semantic"⟩)) :=
  claim7_semantic_scoring.1 "alpha" [w7r] (by decide)

/-! ### C3: the fusion step -/

/-- Paths untouched by the filename leg keep their dict entry unchanged. -/
theorem applyFilenameLeg_lookup_of_not_mem :
    ∀ (rs : List Result) (acc : List (String × Result)) (p : String),
      (∀ r ∈ rs, r.path ≠ p) →
      lookupA p (applyFilenameLeg rs acc) = lookupA p acc := by
  intro rs
  induction rs with
  | nil => intro acc p _; rfl
  | cons r rest ih =>
    intro acc p h
    rw [applyFilenameLeg]
    have hne : r.path ≠ p := h r (List.mem_cons_self _ _)
    cases hl : lookupA r.path acc with
    | some e =>
      dsimp only
      rw [ih _ _ (fun x hx => h x (List.mem_cons_of_mem _ hx))]
      exact lookupA_updateA_ne _ hne
    | none =>
      dsimp only
      rw [ih _ _ (fun x hx => h x (List.mem_cons_of_mem _ hx))]
      exact lookupA_append_ne hne

/-- A path present in the semantic dict and hit (once) by the filename leg is
boosted to `max(existing + 0.2, filename_score)`. -/
theorem applyFilenameLeg_boost :
    ∀ (rs : List Result) (acc : List (String × Result)) (p : String) (r e : Result),
      (rs.map Result.path).Nodup → r ∈ rs → r.path = p →
      lookupA p acc = some e →
      lookupA p (applyFilenameLeg rs acc) =
        some { e with score := max (e.score + 0.2) r.score,
                      searchType := "hybrid_combined" } := by
  intro rs
  induction rs with
  | nil => intro acc p r e _ hr; cases hr
  | cons r0 rest ih =>
    intro acc p r e hnodup hr hrp he
    rw [applyFilenameLeg]
    by_cases h0 : r0.path = p
    · have hrr : r = r0 := by
        rcases List.mem_cons.mp hr with h | hmem
        · exact h
        · exfalso
          have : p ∈ rest.map Result.path :=
            hrp ▸ List.mem_map_of_mem Result.path hmem
          exact (List.nodup_cons.mp hnodup).1 (h0 ▸ this)
      subst hrr
      rw [h0, he]
      dsimp only
      rw [applyFilenameLeg_lookup_of_not_mem rest _ p ?hrest]
      · rw [lookupA_updateA_self, he]
        rfl
      case hrest =>
        intro x hx hxp
        exact (List.nodup_cons.mp hnodup).1
          (h0 ▸ hxp ▸ List.mem_map_of_mem Result.path hx)
    · have hmem : r ∈ rest := by
        rcases List.mem_cons.mp hr with h | hm
        · exact absurd (h ▸ hrp) h0
        · exact hm
      cases hl : lookupA r0.path acc with
      | some e0 =>
        dsimp only
        apply ih _ p r e (List.nodup_cons.mp hnodup).2 hmem hrp
        rw [lookupA_updateA_ne _ h0]
        exact he
      | none =>
        dsimp only
        apply ih _ p r e (List.nodup_cons.mp hnodup).2 hmem hrp
        rw [lookupA_append_ne h0]
        exact he

/-- A path hit (once) by the filename leg only is added with its filename
score kept. -/
theorem applyFilenameLeg_new :
    ∀ (rs : List Result) (acc : List (String × Result)) (p : String) (r : Result),
      (rs.map Result.path).Nodup → r ∈ rs → r.path = p →
      lookupA p acc = none →
      lookupA p (applyFilenameLeg rs acc) =
        some { r with searchType := "filename_fuzzy" } := by
  intro rs
  induction rs with
  | nil => intro acc p r _ hr; cases hr
  | cons r0 rest ih =>
    intro acc p r hnodup hr hrp he
    rw [applyFilenameLeg]
    by_cases h0 : r0.path = p
    · have hrr : r = r0 := by
        rcases List.mem_cons.mp hr with h | hmem
        · exact h
        · exfalso
          have : p ∈ rest.map Result.path :=
            hrp ▸ List.mem_map_of_mem Result.path hmem
          exact (List.nodup_cons.mp hnodup).1 (h0 ▸ this)
      subst hrr
      rw [h0, he]
      dsimp only
      rw [applyFilenameLeg_lookup_of_not_mem rest _ p ?hrest]
      · exact lookupA_append_self he
      case hrest =>
        intro x hx hxp
        exact (List.nodup_cons.mp hnodup).1
          (h0 ▸ hxp ▸ List.mem_map_of_mem Result.path hx)
    · have hmem : r ∈ rest := by
        rcases List.mem_cons.mp hr with h | hm
        · exact absurd (h ▸ hrp) h0
        · exact hm
      cases hl : lookupA r0.path acc with
      | some e0 =>
        dsimp only
        apply ih _ p r (List.nodup_cons.mp hnodup).2 hmem hrp
        rw [lookupA_updateA_ne _ h0]
        exact he
      | none =>
        dsimp only
        apply ih _ p r (List.nodup_cons.mp hnodup).2 hmem hrp
        rw [lookupA_append_ne h0]
        exact he

/-- C3: fusion by path.  A path in both legs fuses to
`max(semantic_entry + 0.2, filename_score)`; a path in only one leg keeps its
leg score; and in the concrete scenario (filename score 1.0, semantic entry
0.6) the fused score is `max(0.8, 1.0) = 1.0 ≥ 0.8` and the path outranks a
semantic-only path scoring 0.5. -/
theorem claim3_fusion :
    (∀ (acc : List (String × Result)) (fn : List Result) (p : String) (r e : Result),
      (fn.map Result.path).Nodup → r ∈ fn → r.path = p → lookupA p acc = some e →
      lookupA p (applyFilenameLeg fn acc) =
        some { e with score := max (e.score + 0.2) r.score,
                      searchType := "hybrid_combined" }) ∧
    (∀ (acc : List (String × Result)) (fn : List Result) (p : String) (e : Result),
      (∀ r ∈ fn, r.path ≠ p) → lookupA p acc = some e →
      lookupA p (applyFilenameLeg fn acc) = some e) ∧
    (∀ (acc : List (String × Result)) (fn : List Result) (p : String) (r : Result),
      (fn.map Result.path).Nodup → r ∈ fn → r.path = p → lookupA p acc = none →
      lookupA p (applyFilenameLeg fn acc) =
        some { r with searchType := "filename_fuzzy" }) ∧
    (lookupA "/d/A" (applyFilenameLeg [c3fnA] c3acc) =
       some ⟨"/d/A", "A", "", 1, "hybrid_combined"⟩ ∧
     (0.8 : ℚ) ≤ 1 ∧
     c3final.map Result.path = ["/d/A", "/d/B"]) := by
  refine ⟨fun acc fn p r e h1 h2 h3 h4 =>
            applyFilenameLeg_boost fn acc p r e h1 h2 h3 h4,
          fun acc fn p e h1 h2 => by
            rw [applyFilenameLeg_lookup_of_not_mem fn acc p h1]; exact h2,
          fun acc fn p r h1 h2 h3 h4 =>
            applyFilenameLeg_new fn acc p r h1 h2 h3 h4,
          by decide, by norm_num, by decide⟩

theorem claim3_witness :
    lookupA "/d/A" (applyFilenameLeg [c3fnA] c3acc) =
      some { c3accA with score := max (c3accA.score + 0.2) c3fnA.score,
                         searchType := "hybrid_combined" } :=
  claim3_fusion.1 c3acc [c3fnA] "/d/A" c3fnA c3accA (by decide) (by decide)
    (by decide) (by decide)

/-! ### C8: filtering commutes with a stable sort -/

theorem orderedInsert_cons_of_rel {α : Type} {r : α → α → Prop} [DecidableRel r]
    (a b : α) (l : List α) (h : r a b) :
    List.orderedInsert r a (b :: l) = a :: b :: l := by
  rw [List.orderedInsert, if_pos h]

theorem orderedInsert_cons_of_not_rel {α : Type} {r : α → α → Prop} [DecidableRel r]
    (a b : α) (l : List α) (h : ¬ r a b) :
    List.orderedInsert r a (b :: l) = b :: List.orderedInsert r a l := by
  rw [List.orderedInsert, if_neg h]

theorem filter_orderedInsert_neg {α : Type} {r : α → α → Prop} [DecidableRel r]
    (p : α → Bool) (a : α) (h : ¬ p a) :
    ∀ l : List α, (l.orderedInsert r a).filter p = l.filter p := by
  intro l
  induction l with
  | nil => simp [List.orderedInsert, h]
  | cons b t ih =>
    by_cases hr : r a b
    · rw [orderedInsert_cons_of_rel _ _ _ hr, List.filter_cons_of_neg h]
    · rw [orderedInsert_cons_of_not_rel _ _ _ hr]
      by_cases hb : p b
      · simp only [List.filter_cons_of_pos hb]
        rw [ih]
      · simp only [List.filter_cons_of_neg hb]
        rw [ih]

theorem filter_orderedInsert_pos {α : Type} {r : α → α → Prop} [DecidableRel r]
    [IsTrans α r] (p : α → Bool) (a : α) (h : p a) :
    ∀ l : List α, l.Sorted r →
      (l.orderedInsert r a).filter p = (l.filter p).orderedInsert r a := by
  intro l
  induction l with
  | nil => simp [List.orderedInsert, h]
  | cons b t ih =>
    intro hs
    by_cases hr : r a b
    · rw [orderedInsert_cons_of_rel _ _ _ hr, List.filter_cons_of_pos h]
      by_cases hb : p b
      · simp only [List.filter_cons_of_pos hb]
        rw [orderedInsert_cons_of_rel _ _ _ hr]
      · simp only [List.filter_cons_of_neg hb]
        cases hft : t.filter p with
        | nil => simp [hft, List.orderedInsert]
        | cons c cs =>
          have hc : c ∈ t := List.mem_of_mem_filter (hft ▸ List.mem_cons_self c cs)
          have hrac : r a c :=
            IsTrans.trans _ _ _ hr (List.rel_of_sorted_cons hs c hc)
          rw [orderedInsert_cons_of_rel _ _ _ hrac]
    · rw [orderedInsert_cons_of_not_rel _ _ _ hr]
      by_cases hb : p b
      · simp only [List.filter_cons_of_pos hb]
        rw [ih hs.of_cons, orderedInsert_cons_of_not_rel _ _ _ hr]
      · simp only [List.filter_cons_of_neg hb]
        rw [ih hs.of_cons]

/-- A stable sort commutes with filtering. -/
theorem filter_insertionSort {α : Type} (r : α → α → Prop) [DecidableRel r]
    [IsTotal α r] [IsTrans α r] (p : α → Bool) :
    ∀ l : List α,
      (List.insertionSort r l).filter p = List.insertionSort r (l.filter p) := by
  intro l
  induction l with
  | nil => rfl
  | cons a t ih =>
    rw [List.insertionSort]
    by_cases ha : p a
    · rw [List.filter_cons_of_pos ha, List.insertionSort,
        filter_orderedInsert_pos p a ha _ (List.sorted_insertionSort r t), ih]
    · rw [List.filter_cons_of_neg ha,
        filter_orderedInsert_neg p a ha _, ih]

/-- C8: the final hybrid result list is exactly the fused entries scoring at
least 0.3, in stable descending-score order (ties keep discovery order),
truncated to the configured cap — filtering before or after the stable sort
gives the same list, and the output is sorted. -/
theorem claim8_rank (cfg : FinderConfig) (query : String)
    (indexerFn : String → Nat → List Result) (files : List (String × String)) :
    agentSearch cfg query indexerFn files =
      (List.insertionSort resGe
        (((agentFused cfg query indexerFn files).map Prod.snd).filter
          (fun x => decide ((0.3 : ℚ) ≤ x.score)))).take cfg.maxSearchResults ∧
    (agentSearch cfg query indexerFn files).Sorted resGe := by
  constructor
  · unfold agentSearch agentRank
    rw [filter_insertionSort resGe _ _]
  · unfold agentSearch agentRank
    apply List.Pairwise.sublist (List.take_sublist _ _)
    exact (List.sorted_insertionSort resGe _).filter _

/-! ### C4: the filename leg's per-file score -/

theorem keywordMatchScore_le_one (q c : String) : keywordMatchScore q c ≤ 1 := by
  unfold keywordMatchScore
  by_cases h : ((tokenize q).dedup).length = 0
  · simp [h]
  · rw [if_neg h]
    have h0 : (0 : ℚ) < ((tokenize q).dedup).length := by
      exact_mod_cast Nat.pos_of_ne_zero h
    rw [div_le_one h0]
    exact_mod_cast List.length_filter_le _ _

set_option maxRecDepth 8000 in
set_option maxHeartbeats 2000000 in
/-- C4 counterexample: for the query `"tax red"` against file
`"red-tax.pdf"` (keyword overlap 1.0, sequence ratio 4/9, no substring
match) the source discards the file before the keyword score is consulted,
while the claimed rule would keep it with score `max(4/9, 1.0) = 1.0`. -/
theorem claim4_counterexample :
    fileScore "tax red" "red-tax.pdf" = none ∧
    specFileScore "tax red" "red-tax.pdf" = some 1 ∧
    fileScore "tax red" "red-tax.pdf" ≠ specFileScore "tax red" "red-tax.pdf" := by
  refine ⟨?_, ?_, ?_⟩ <;> decide

/-- C4 (amended): the per-file score is 1.0 on a case-insensitive substring
match; otherwise, when the sequence-similarity ratio reaches 0.6, the score
is the best of that ratio and the keyword-overlap ratio; a file whose ratio
falls below 0.6 is discarded outright, without consulting the keyword
overlap.  The `"invoice"` / `"Invoice_2023.pdf"` scenario still returns the
file with score 1.0. -/
theorem claim4_amended :
    (∀ pattern fileName : String,
      fileScore pattern fileName =
        (if isSubList (lowerData pattern) (lowerData fileName) then some 1
         else if fuzzyRatio (lowerData pattern) (lowerData fileName) < 0.6 then
           none
         else
           some (max (fuzzyRatio (lowerData pattern) (lowerData fileName))
             (keywordMatchScore pattern fileName)))) ∧
    filenameSearch [("/staged/Invoice_2023.pdf", "Invoice_2023.pdf")]
        "invoice" 20 =
      [⟨"/staged/Invoice_2023.pdf", "Invoice_2023.pdf", "", 1, "filename"⟩] := by
  constructor
  · intro pattern fileName
    simp only [fileScore]
    by_cases hsub : isSubList (lowerData pattern) (lowerData fileName)
    · rw [if_pos hsub, if_pos hsub]
      dsimp only
      rw [max_eq_left (keywordMatchScore_le_one pattern fileName)]
      rw [if_pos (by norm_num : (0.6 : ℚ) ≤ 1)]
    · rw [if_neg hsub, if_neg hsub]
      by_cases hfz : fuzzyRatio (lowerData pattern) (lowerData fileName) < 0.6
      · rw [if_pos hfz, if_pos hfz]
      · rw [if_neg hfz, if_neg hfz]
        dsimp only
        rw [if_pos (le_trans (not_lt.mp hfz) (le_max_left _ _))]
  · decide

/-! ### C10: path uniqueness is kept, stale chunk rows are not -/

/-- The upsert of `index_file` preserves path uniqueness of the document
rows: the new row's path has just been filtered out of the old rows. -/
theorem upsert_pathsNodup (docs : List DocRow) (nd : DocRow) (p : String)
    (hp : nd.filePath = p) (hnd : (docs.map DocRow.filePath).Nodup) :
    ((docs.filter (fun d => d.filePath != p) ++ [nd]).map
      DocRow.filePath).Nodup := by
  rw [List.map_append]
  refine List.nodup_append.mpr ⟨?_, by simp, ?_⟩
  · exact hnd.sublist ((List.filter_sublist _).map DocRow.filePath)
  · intro q hq hq2
    simp only [List.map_cons, List.map_nil, List.mem_singleton, hp] at hq2
    obtain ⟨x, hx, hxp⟩ := List.mem_map.mp hq
    have := (List.mem_filter.mp hx).2
    rw [bne_iff_ne] at this
    exact this (hxp.trans hq2)

/-- C10: `INSERT OR REPLACE` keeps at most one document row per path, but
re-indexing a changed file leaves the previous version's chunk rows in place
with a dangling `document_id`, so the total chunk count can strictly exceed
the sum of `chunk_count` over the live document rows (shown concretely by
`c10st2`, the state after indexing the same path at two mtimes). -/
theorem claim10_stale_chunks :
    (∀ (cfg : FinderConfig) (f : FileInfo) (proc : Except String FileData)
       (split : String → List String) (embedOk : Bool) (store : Option Nat)
       (now : ℚ) (st : DBState),
      (st.docs.map DocRow.filePath).Nodup →
      (((indexFile cfg f proc split embedOk store now st).2.docs).map
        DocRow.filePath).Nodup) ∧
    (∀ (cfg : FinderConfig) (f : FileInfo) (fd : FileData)
       (split : String → List String) (now : ℚ) (st : DBState) (d : DocRow),
      (st.docs.map DocRow.id).Nodup →
      (∀ x ∈ st.docs, x.id < st.nextId) →
      st.docs.find? (fun x => x.filePath == f.path) = some d →
      ¬ ratAbs (f.mtime - d.modifiedTime) < 1 →
      shouldIndexFile cfg f = true →
      fd.content ≠ "" → fd.error = none → split fd.content ≠ [] →
      (indexFile cfg f (.ok fd) split true none now st).1 = true ∧
      (∀ c ∈ st.chunks,
        c ∈ (indexFile cfg f (.ok fd) split true none now st).2.chunks) ∧
      ((indexFile cfg f (.ok fd) split true none now st).2.docs.filter
          (fun x => x.filePath == f.path)).length = 1 ∧
      (∀ x ∈ (indexFile cfg f (.ok fd) split true none now st).2.docs,
        x.id ≠ d.id)) ∧
    ((getStats c10st2).2.1 = 2 ∧ liveChunkSum c10st2 = 1 ∧
      liveChunkSum c10st2 < (getStats c10st2).2.1 ∧
      c10st2.docs.map DocRow.filePath = ["/docs/n.txt"] ∧
      (∃ c ∈ c10st2.chunks, ∀ x ∈ c10st2.docs, x.id ≠ c.docId)) := by
  refine ⟨?_, ?_, by decide⟩
  · intro cfg f proc split embedOk store now st hnd
    unfold indexFile
    by_cases h1 : (!shouldIndexFile cfg f || isFileIndexed st f.path f.mtime) = true
    · rw [if_pos h1]; exact hnd
    · rw [if_neg h1]
      cases proc with
      | error e => exact hnd
      | ok fd =>
        dsimp only
        by_cases h2 : (fd.content == "" || fd.error.isSome) = true
        · rw [if_pos h2]; exact hnd
        · rw [if_neg h2]
          by_cases h3 : (split fd.content).isEmpty = true
          · rw [if_pos h3]; exact hnd
          · rw [if_neg h3]
            by_cases h4 : (!embedOk) = true
            · rw [if_pos h4]; exact hnd
            · rw [if_neg h4]
              cases store with
              | none => exact upsert_pathsNodup st.docs _ f.path rfl hnd
              | some j =>
                cases j with
                | zero => exact hnd
                | succ k => exact upsert_pathsNodup st.docs _ f.path rfl hnd
  · intro cfg f fd split now st d hids hfresh hfind hm hel hc he hsplit
    have hidx : isFileIndexed st f.path f.mtime = false := by
      unfold isFileIndexed
      rw [hfind]
      exact decide_eq_false hm
    have h1 : ¬ (!shouldIndexFile cfg f || isFileIndexed st f.path f.mtime) = true := by
      rw [hel, hidx]
      simp
    have h2 : ¬ (fd.content == "" || fd.error.isSome) = true := by
      rw [he]
      simp [hc]
    have h3 : ¬ (split fd.content).isEmpty = true := by
      simpa [List.isEmpty_iff] using hsplit
    have hd_mem : d ∈ st.docs := List.mem_of_find?_eq_some hfind
    have hd_path : d.filePath = f.path := by
      simpa using List.find?_some hfind
    have hred : indexFile cfg f (.ok fd) split true none now st =
        (true, ⟨st.docs.filter (fun x => x.filePath != f.path) ++
            [⟨st.nextId, f.path, f.name, fd.fileSize, fd.modifiedTime,
              (split fd.content).length, now⟩],
          st.chunks ++ (split fd.content).enum.map
            (fun ic => ⟨st.nextId, ic.1, ic.2, st.ntotal + ic.1⟩),
          st.nextId + 1, st.ntotal + (split fd.content).length⟩) := by
      unfold indexFile
      rw [if_neg h1]
      dsimp only
      rw [if_neg h2, if_neg h3]
      rfl
    refine ⟨by rw [hred], ?_, ?_, ?_⟩
    · intro c hcm
      rw [hred]
      exact List.mem_append_left _ hcm
    · rw [hred]
      dsimp only
      rw [List.filter_append]
      have hnil : List.filter (fun x => x.filePath == f.path)
          (List.filter (fun x => x.filePath != f.path) st.docs) = [] := by
        apply List.filter_eq_nil_iff.mpr
        intro x hx
        have := (List.mem_filter.mp hx).2
        rw [bne_iff_ne] at this
        simpa using this
      rw [hnil]
      simp
    · intro x hx
      rw [hred] at hx
      rcases List.mem_append.mp hx with hxf | hxn
      · intro hxd
        have hxm := (List.mem_filter.mp hxf).1
        have hxp := (List.mem_filter.mp hxf).2
        rw [bne_iff_ne] at hxp
        have : x = d := List.inj_on_of_nodup_map hids hxm hd_mem hxd
        exact hxp (this ▸ hd_path)
      · simp only [List.mem_singleton] at hxn
        intro hxd
        have := hfresh d hd_mem
        rw [hxn] at hxd
        simp only at hxd
        omega

theorem claim10_witness :
    (indexFile defaultConfig c10f2 (.ok c10fd2) c10split true none 2 c10st1).1 =
      true :=
  (claim10_stale_chunks.2.1 defaultConfig c10f2 c10fd2 c10split 2 c10st1
    ⟨1, "/docs/n.txt", "n.txt", 4, 100, 1, 1⟩ (by decide) (by decide) (by decide)
    (by decide) (by decide) (by decide) (by decide) (by decide)).1

/-! ### C9: the content chunker (spec-modelled) -/

theorem chunkText_ne_nil (W O : Nat) (t : List Char) (ht : t ≠ []) :
    chunkText W O t ≠ [] := by
  rw [chunkText]
  have h0 : ¬ t.length = 0 := by simpa using ht
  rw [if_neg h0]
  split_ifs <;> simp

/-- The first chunk of a nonempty text starts with the text's first
`O` characters. -/
theorem chunkText_head_take (W O : Nat) (t : List Char) (ht : t ≠ []) :
    ∀ y ∈ (chunkText W O t).head?, y.take O = t.take O := by
  intro y hy
  rw [chunkText] at hy
  have h0 : ¬ t.length = 0 := by simpa using ht
  rw [if_neg h0] at hy
  by_cases h1 : t.length ≤ W
  · rw [if_pos h1] at hy
    simp only [List.head?_cons, Option.mem_some_iff] at hy
    rw [← hy]
  · rw [if_neg h1] at hy
    by_cases h2 : W ≤ O
    · rw [if_pos h2] at hy
      simp only [List.head?_cons, Option.mem_some_iff] at hy
      rw [← hy]
    · rw [if_neg h2] at hy
      simp only [List.head?_cons, Option.mem_some_iff] at hy
      rw [← hy, List.take_take, Nat.min_eq_left (Nat.le_of_not_le h2)]

theorem reassemble_cons (O : Nat) (c : List Char) (rest : List (List Char))
    (h : rest ≠ []) :
    reassemble O (c :: rest) = c.take (c.length - O) ++ reassemble O rest := by
  cases rest with
  | nil => exact absurd rfl h
  | cons d ds => rfl

theorem chunkText_count (W O : Nat) (hWO : O < W) :
    ∀ (n : Nat) (t : List Char), t.length ≤ n → t ≠ [] →
      (chunkText W O t).length =
        if t.length ≤ W then 1 else (t.length - O + (W - O) - 1) / (W - O) := by
  intro n
  induction n with
  | zero =>
    intro t hn ht
    exact absurd (List.eq_nil_of_length_eq_zero (Nat.le_zero.mp hn)) ht
  | succ n ih =>
    intro t hn ht
    have h0 : ¬ t.length = 0 := by simpa using ht
    rw [chunkText, if_neg h0]
    by_cases h1 : t.length ≤ W
    · rw [if_pos h1, if_pos h1]
      rfl
    · rw [if_neg h1, if_neg h1, if_neg (Nat.not_le.mpr hWO)]
      have hD : 0 < W - O := Nat.sub_pos_of_lt hWO
      have hL : W < t.length := Nat.not_le.mp h1
      have hDW : W - O ≤ W := Nat.sub_le _ _
      set t' := t.drop (W - O) with ht'
      have hlen' : t'.length = t.length - (W - O) := List.length_drop _ _
      have hO' : O < t'.length := by
        rw [hlen']
        omega
      have ht'ne : t' ≠ [] := by
        intro h
        rw [h] at hlen'
        simp at hlen'
        omega
      have hle : t'.length ≤ n := by
        rw [hlen']
        omega
      rw [List.length_cons, ih t' hle ht'ne]
      by_cases h2 : t'.length ≤ W
      · rw [if_pos h2]
        have hx1 : 1 ≤ t'.length - O := by omega
        have hx2 : t'.length - O ≤ W - O := by omega
        have harith : t.length - O + (W - O) - 1 =
            (t'.length - O) + 2 * (W - O) - 1 := by
          rw [hlen']
          omega
        rw [harith]
        have := Nat.div_eq_of_lt_le
          (show 2 * (W - O) ≤ t'.length - O + 2 * (W - O) - 1 by omega)
          (show t'.length - O + 2 * (W - O) - 1 < (2 + 1) * (W - O) by omega)
        omega
      · rw [if_neg h2]
        have hO2 : O < t'.length := hO'
        have harith : t.length - O + (W - O) - 1 =
            (t'.length - O + (W - O) - 1) + (W - O) := by
          rw [hlen']
          omega
        rw [harith, Nat.add_div_right _ hD]

theorem chunkText_chain (W O : Nat) (hWO : O < W) :
    ∀ (n : Nat) (t : List Char), t.length ≤ n →
      List.Chain' (overlapRel O) (chunkText W O t) := by
  intro n
  induction n with
  | zero =>
    intro t hn
    rw [List.eq_nil_of_length_eq_zero (Nat.le_zero.mp hn)]
    rw [chunkText]
    simp
  | succ n ih =>
    intro t hn
    by_cases h00 : t.length = 0
    · rw [List.eq_nil_of_length_eq_zero h00, chunkText]
      simp
    · rw [chunkText, if_neg h00]
      by_cases h1 : t.length ≤ W
      · rw [if_pos h1]
        exact List.chain'_singleton t
      · rw [if_neg h1, if_neg (Nat.not_le.mpr hWO)]
        have hL : W < t.length := Nat.not_le.mp h1
        set t' := t.drop (W - O) with ht'
        have hlen' : t'.length = t.length - (W - O) := List.length_drop _ _
        have ht'ne : t' ≠ [] := by
          intro h
          rw [h] at hlen'
          simp at hlen'
          omega
        have hle : t'.length ≤ n := by
          rw [hlen']
          omega
        apply List.chain'_cons'.mpr
        constructor
        · intro y hy
          have hyt : y.take O = t'.take O := chunkText_head_take W O t' ht'ne y hy
          unfold overlapRel
          rw [hyt]
          have hlt : (t.take W).length = W :=
            List.length_take_of_le (Nat.le_of_lt hL)
          rw [hlt, List.drop_take]
          congr 1
          omega
        · exact ih t' hle

theorem chunkText_reassemble (W O : Nat) (hWO : O < W) :
    ∀ (n : Nat) (t : List Char), t.length ≤ n → t ≠ [] →
      reassemble O (chunkText W O t) = t := by
  intro n
  induction n with
  | zero =>
    intro t hn ht
    exact absurd (List.eq_nil_of_length_eq_zero (Nat.le_zero.mp hn)) ht
  | succ n ih =>
    intro t hn ht
    have h0 : ¬ t.length = 0 := by simpa using ht
    rw [chunkText, if_neg h0]
    by_cases h1 : t.length ≤ W
    · rw [if_pos h1]
      rfl
    · rw [if_neg h1, if_neg (Nat.not_le.mpr hWO)]
      have hL : W < t.length := Nat.not_le.mp h1
      set t' := t.drop (W - O) with ht'
      have hlen' : t'.length = t.length - (W - O) := List.length_drop _ _
      have ht'ne : t' ≠ [] := by
        intro h
        rw [h] at hlen'
        simp at hlen'
        omega
      have hle : t'.length ≤ n := by
        rw [hlen']
        omega
      rw [reassemble_cons O _ _ (chunkText_ne_nil W O t' ht'ne)]
      rw [ih t' hle ht'ne]
      have hlt : (t.take W).length = W :=
        List.length_take_of_le (Nat.le_of_lt hL)
      rw [hlt, List.take_take, Nat.min_eq_left (Nat.sub_le _ _)]
      exact List.take_append_drop _ _

/-- C9 (amended, modelled from the spec: the chunking library itself is not
in `src/`): for `0 ≤ O < W` and a NONEMPTY text, the chunk count is
`ceil((len - O)/(W - O))` (1 when `len ≤ W`), consecutive chunks overlap by
exactly `O` characters, and dropping the trailing `O` characters of every
non-final chunk and concatenating reproduces the text.  The model is a pure
function, so identical inputs give identical outputs.  Empty input yields
zero chunks (spec §4.1), not one — see the counterexample. -/
theorem claim9_amended (W O : Nat) (t : List Char) (hWO : O < W) (ht : t ≠ []) :
    ((chunkText W O t).length =
      if t.length ≤ W then 1 else (t.length - O + (W - O) - 1) / (W - O)) ∧
    List.Chain' (overlapRel O) (chunkText W O t) ∧
    reassemble O (chunkText W O t) = t :=
  ⟨chunkText_count W O hWO t.length t (le_refl _) ht,
   chunkText_chain W O hWO t.length t (le_refl _),
   chunkText_reassemble W O hWO t.length t (le_refl _) ht⟩

/-- C9 counterexample: the empty text has length `≤ W` yet produces zero
chunks, not the single chunk the claim asserts. -/
theorem claim9_counterexample :
    ([] : List Char).length ≤ 1000 ∧ (chunkText 1000 200 []).length ≠ 1 := by
  constructor
  · simp
  · rw [chunkText]
    simp

theorem claim9_witness :
    reassemble 2 (chunkText 5 2 "abcdefgh".data) = "abcdefgh".data :=
  (claim9_amended 5 2 "abcdefgh".data (by decide) (by decide)).2.2

end EnhancedFinder
